import Mathlib

/-!
Shallow embedding of the supplyx proof-of-stake ledger core (src/main.rs).

Identities (ed25519 public keys) are modelled as natural numbers, byte
strings as lists of naturals, and the external SHA3-256 digest and ed25519
signing primitives as an abstract `Crypto` bundle of functions, since the
core only consumes them.  The `f64` contribution score is modelled as an
exact rational: every numeric literal the source compares against (0.5,
0.0, 10.0, 1.0) is exactly representable, and no reachable state produces
NaN or infinity, so the rational model agrees with the floating-point code
on the properties below.  The `HashMap<PublicKey, Validator>` registry is
modelled as an association list in insertion order; the walk order of the
map (which Rust leaves unspecified) is the list order.  Methods that take
`&mut self` are modelled as functions returning the `Result` value paired
with the updated state, so that a failed call returning the state
unchanged is a provable fact rather than a modelling artifact.  Wall-clock
timestamps and the random draw of `select_validator` are explicit
arguments.
-/

namespace SupplyX

/-- Identities: ed25519 public keys, modelled abstractly. -/
abbrev PublicKey := Nat

/-- Byte strings (`Vec<u8>` in the source). -/
abbrev Bytes := List Nat

/-- External cryptographic primitives consumed by the core: the SHA3-256
digest, signing (keyed here by the signer's public key, since a keypair is
identified by its public half), and the 32-byte serialization of a public
key (`PublicKey::as_bytes`). -/
structure Crypto where
  digest : Bytes → Bytes
  sign : PublicKey → Bytes → Bytes
  pkBytes : PublicKey → Bytes

/-- `struct Validator` of the source. -/
structure Validator where
  public_key : PublicKey
  stake : Nat
  contribution_score : ℚ
  last_validated_block : Option Nat
deriving DecidableEq

/-- `struct Transaction` of the source. -/
structure Transaction where
  sender : PublicKey
  recipient : PublicKey
  amount : Nat
  signature : Bytes
  timestamp : Nat
deriving DecidableEq

/-- `struct Block` of the source. -/
structure Block where
  index : Nat
  timestamp : Nat
  transactions : List Transaction
  previous_hash : Bytes
  current_hash : Bytes
  validator_signature : Bytes
  validator_pubkey : PublicKey
deriving DecidableEq

/-- `struct Blockchain` of the source; the validator `HashMap` is an
association list in insertion order. -/
structure Blockchain where
  chain : List Block
  validators : List (PublicKey × Validator)
  pending_transactions : List Transaction
  current_difficulty : Nat
deriving DecidableEq

/-- The error values the source returns (as `&'static str` messages). -/
inductive ChainError where
  | invalidAmount
  | validatorAlreadyRegistered
  | insufficientStake
  | validatorNotRegistered
  | validatorNotQualified
deriving DecidableEq

deriving instance DecidableEq for Except

/-- The qualification threshold 0.5 on the contribution score, written in
a kernel-computable normal form (`mkRat 1 2 = 1 / 2`, see `half_eq`). -/
def half : ℚ := mkRat 1 2

/-- `HashMap::get`: first binding of the key in the association list. -/
def findValidator (vs : List (PublicKey × Validator)) (pk : PublicKey) : Option Validator :=
  match vs with
  | [] => none
  | (k, v) :: rest => if k = pk then some v else findValidator rest pk

/-- `HashMap::contains_key`. -/
def containsKey (vs : List (PublicKey × Validator)) (pk : PublicKey) : Bool :=
  (findValidator vs pk).isSome

/-- `HashMap::get_mut` followed by a field update: rewrite the binding of
`pk` in place, leaving the list unchanged when the key is absent. -/
def updateValidator (vs : List (PublicKey × Validator)) (pk : PublicKey)
    (f : Validator → Validator) : List (PublicKey × Validator) :=
  match vs with
  | [] => []
  | (k, v) :: rest =>
    if k = pk then (k, f v) :: rest else (k, v) :: updateValidator rest pk f

/-- `u64::to_be_bytes`: the eight big-endian bytes of a 64-bit integer. -/
def u64be (n : Nat) : Bytes :=
  [n / 2 ^ 56 % 256, n / 2 ^ 48 % 256, n / 2 ^ 40 % 256, n / 2 ^ 32 % 256,
   n / 2 ^ 24 % 256, n / 2 ^ 16 % 256, n / 2 ^ 8 % 256, n % 256]

/-- `Blockchain::new`. -/
def Blockchain.new : Blockchain :=
  { chain := [], validators := [], pending_transactions := [], current_difficulty := 4 }

/-- `Blockchain::hash_transaction_data`: SHA3-256 over sender bytes,
recipient bytes, big-endian amount, big-endian timestamp (incremental
`update` calls hash the concatenation). -/
def hash_transaction_data (c : Crypto) (sender recipient : PublicKey)
    (amount timestamp : Nat) : Bytes :=
  c.digest (c.pkBytes sender ++ c.pkBytes recipient ++ u64be amount ++ u64be timestamp)

/-- The canonical digest of a transaction, as formed at submission time. -/
def txDigest (c : Crypto) (t : Transaction) : Bytes :=
  hash_transaction_data c t.sender t.recipient t.amount t.timestamp

/-- `Blockchain::create_transaction`.  The wall-clock timestamp is an
explicit argument. -/
def create_transaction (c : Crypto) (b : Blockchain) (sender recipient : PublicKey)
    (amount timestamp : Nat) : Except ChainError Unit × Blockchain :=
  if amount = 0 then
    (.error .invalidAmount, b)
  else
    let tx : Transaction :=
      { sender := sender, recipient := recipient, amount := amount,
        signature := c.sign sender (hash_transaction_data c sender recipient amount timestamp),
        timestamp := timestamp }
    (.ok (), { b with pending_transactions := b.pending_transactions ++ [tx] })

/-- `Blockchain::calculate_block_hash`: SHA3-256 over the previous hash
followed by each transaction's canonical digest, in order. -/
def calculate_block_hash (c : Crypto) (previous_hash : Bytes)
    (txs : List Transaction) : Bytes :=
  c.digest (previous_hash ++ (txs.map (txDigest c)).flatten)

/-- `Blockchain::validate_and_create_block`.  The wall-clock timestamp is
an explicit argument. -/
def validate_and_create_block (c : Crypto) (b : Blockchain) (validator_pubkey : PublicKey)
    (timestamp : Nat) : Except ChainError Block × Blockchain :=
  match findValidator b.validators validator_pubkey with
  | none => (.error .validatorNotRegistered, b)
  | some v =>
    if v.stake < 1000 ∨ v.contribution_score < half then
      (.error .validatorNotQualified, b)
    else
      let previous_hash :=
        match b.chain.getLast? with
        | some last => last.current_hash
        | none => List.replicate 32 0
      let index := b.chain.length
      let current_hash := calculate_block_hash c previous_hash b.pending_transactions
      let blk : Block :=
        { index := index, timestamp := timestamp,
          transactions := b.pending_transactions,
          previous_hash := previous_hash, current_hash := current_hash,
          validator_signature := c.sign validator_pubkey current_hash,
          validator_pubkey := validator_pubkey }
      (.ok blk, { b with chain := b.chain ++ [blk], pending_transactions := [] })

/-- `Blockchain::register_validator`. -/
def register_validator (b : Blockchain) (pubkey : PublicKey) (initial_stake : Nat) :
    Except ChainError Unit × Blockchain :=
  if containsKey b.validators pubkey then
    (.error .validatorAlreadyRegistered, b)
  else if initial_stake < 500 then
    (.error .insufficientStake, b)
  else
    (.ok (),
     { b with validators := b.validators ++
        [(pubkey,
          { public_key := pubkey, stake := initial_stake,
            contribution_score := 1, last_validated_block := none })] })

/-- `Blockchain::ajuster_contribution_score`: add the adjustment and clamp
into [0, 10]; a silent no-op when the key is unknown. -/
def ajuster_contribution_score (b : Blockchain) (pubkey : PublicKey) (ajustement : ℚ) :
    Blockchain :=
  let upd := fun v : Validator =>
    { v with contribution_score := max 0 (min (v.contribution_score + ajustement) 10) }
  { b with validators := updateValidator b.validators pubkey upd }

/-- The total weighted stake of `Blockchain::select_validator`:
`Σ stake · contribution_score`. -/
def total_weighted_stake (vs : List (PublicKey × Validator)) : ℚ :=
  (vs.map (fun kv => (kv.2.stake : ℚ) * kv.2.contribution_score)).sum

/-- The cumulative-weight walk of `Blockchain::select_validator`: starting
from accumulated weight `acc`, return the first validator whose cumulative
weight reaches or exceeds `point`. -/
def select_walk (point : ℚ) (acc : ℚ) : List (PublicKey × Validator) → Option PublicKey
  | [] => none
  | (pk, v) :: rest =>
    let acc2 := acc + (v.stake : ℚ) * v.contribution_score
    if point ≤ acc2 then some pk else select_walk point acc2 rest

/-- `Blockchain::select_validator`.  The random draw is the explicit
argument `r`, modelling `rng.gen::<f64>()`, a uniform value in [0, 1);
`random_point = r * total_weighted_stake`. -/
def select_validator (b : Blockchain) (r : ℚ) : Option PublicKey :=
  select_walk (r * total_weighted_stake b.validators) 0 b.validators

/-- The states reachable from the empty ledger by any sequence of the four
public operations (with arbitrary arguments, timestamps and draws; failed
calls leave the state unchanged and are included). -/
inductive Reachable (c : Crypto) : Blockchain → Prop where
  | init : Reachable c Blockchain.new
  | register {b : Blockchain} (pk : PublicKey) (s : Nat) :
      Reachable c b → Reachable c (register_validator b pk s).2
  | submit {b : Blockchain} (sender recipient : PublicKey) (amount ts : Nat) :
      Reachable c b → Reachable c (create_transaction c b sender recipient amount ts).2
  | adjust {b : Blockchain} (pk : PublicKey) (d : ℚ) :
      Reachable c b → Reachable c (ajuster_contribution_score b pk d)
  | produce {b : Blockchain} (pk : PublicKey) (ts : Nat) :
      Reachable c b → Reachable c (validate_and_create_block c b pk ts).2

/-- The hash-chaining and gaplessness property of a chain: every block's
index is its position, block 0 has the all-zero previous hash, and each
later block's previous hash is its predecessor's current hash. -/
def ChainWellFormed (bs : List Block) : Prop :=
  (∀ i (h : i < bs.length), (bs.get ⟨i, h⟩).index = i) ∧
  (∀ h0 : 0 < bs.length, (bs.get ⟨0, h0⟩).previous_hash = List.replicate 32 0) ∧
  (∀ i (h : i + 1 < bs.length),
    (bs.get ⟨i + 1, h⟩).previous_hash = (bs.get ⟨i, Nat.lt_of_succ_lt h⟩).current_hash)

/-- The state invariant maintained by every operation: the chain is well
formed, every pending transaction carries the signature formed at
submission time over its canonical digest, and no validator has ever had
`last_validated_block` set. -/
def Inv (c : Crypto) (b : Blockchain) : Prop :=
  ChainWellFormed b.chain ∧
  (∀ t ∈ b.pending_transactions, t.signature = c.sign t.sender (txDigest c t)) ∧
  (∀ kv ∈ b.validators, kv.2.last_validated_block = none)

/-! ### Concrete instances used to witness the theorems below -/

/-- A concrete, fully computable crypto bundle for witnesses. -/
def cryptoT : Crypto :=
  { digest := fun l => List.replicate 32 (l.length % 256),
    sign := fun pk m => pk :: m,
    pkBytes := fun pk => List.replicate 32 (pk % 256) }

/-- A registered validator whose contribution score has been driven to 0. -/
def zeroVal : Validator :=
  { public_key := 1, stake := 1000, contribution_score := 0, last_validated_block := none }

/-- A ledger whose only validator has weight 0 (stake 1000, score 0). -/
def zeroWeightLedger : Blockchain :=
  { chain := [], validators := [(1, zeroVal)], pending_transactions := [],
    current_difficulty := 4 }

/-- The empty ledger after registering validator 1 with stake 1000. -/
def ledger1 : Blockchain := (register_validator Blockchain.new 1 1000).2

/-- `ledger1` after submitting a transaction from 1 to 2 of amount 50 at
time 5. -/
def ledger2 : Blockchain := (create_transaction cryptoT ledger1 1 2 50 5).2

/-- The block produced by validator 1 on `ledger2` at time 7. -/
def blkW : Block :=
  { index := 0, timestamp := 7,
    transactions := ledger2.pending_transactions,
    previous_hash := List.replicate 32 0,
    current_hash := calculate_block_hash cryptoT (List.replicate 32 0) ledger2.pending_transactions,
    validator_signature :=
      cryptoT.sign 1 (calculate_block_hash cryptoT (List.replicate 32 0) ledger2.pending_transactions),
    validator_pubkey := 1 }

/-- `ledger2` after validator 1 produced a block at time 7. -/
def ledger3 : Blockchain := (validate_and_create_block cryptoT ledger2 1 7).2

/-! ### Helper lemmas -/

theorem half_eq : half = 1 / 2 := by
  norm_num [half, mkRat, Rat.normalize]

theorem findValidator_append_right (vs ws : List (PublicKey × Validator)) (pk : PublicKey)
    (h : findValidator vs pk = none) :
    findValidator (vs ++ ws) pk = findValidator ws pk := by
  induction vs with
  | nil => simp
  | cons kv rest ih =>
    obtain ⟨k, v⟩ := kv
    by_cases hk : k = pk
    · simp [findValidator, hk] at h
    · simp only [findValidator, hk, if_false, List.cons_append] at h ⊢
      exact ih h

theorem findValidator_updateValidator_self (vs : List (PublicKey × Validator))
    (pk : PublicKey) (f : Validator → Validator) :
    findValidator (updateValidator vs pk f) pk = (findValidator vs pk).map f := by
  induction vs with
  | nil => simp [findValidator, updateValidator]
  | cons kv rest ih =>
    obtain ⟨k, v⟩ := kv
    by_cases hk : k = pk <;>
      simp [findValidator, updateValidator, hk, ih]

theorem updateValidator_of_not_found (vs : List (PublicKey × Validator))
    (pk : PublicKey) (f : Validator → Validator) (h : findValidator vs pk = none) :
    updateValidator vs pk f = vs := by
  induction vs with
  | nil => rfl
  | cons kv rest ih =>
    obtain ⟨k, v⟩ := kv
    by_cases hk : k = pk
    · simp [findValidator, hk] at h
    · simp only [findValidator, hk, if_false] at h
      simp [updateValidator, hk, ih h]

theorem mem_updateValidator (P : Validator → Prop) (vs : List (PublicKey × Validator))
    (pk : PublicKey) (f : Validator → Validator)
    (h : ∀ kv ∈ vs, P kv.2) (hf : ∀ v, P v → P (f v)) :
    ∀ kv ∈ updateValidator vs pk f, P kv.2 := by
  induction vs with
  | nil => simp [updateValidator]
  | cons kv rest ih =>
    obtain ⟨k, v⟩ := kv
    intro kv' hkv'
    by_cases hk : k = pk
    · subst hk
      simp only [updateValidator, if_pos rfl] at hkv'
      rcases List.mem_cons.mp hkv' with h' | hmem
      · subst h'
        exact hf v (h (k, v) (List.mem_cons_self _ _))
      · exact h kv' (List.mem_cons_of_mem _ hmem)
    · simp only [updateValidator, if_neg hk] at hkv'
      rcases List.mem_cons.mp hkv' with h' | hmem
      · subst h'
        exact h (k, v) (List.mem_cons_self _ _)
      · exact ih (fun kv hm => h kv (List.mem_cons_of_mem _ hm)) kv' hmem

/-! ### Well-formed chains are preserved by appending a correctly linked block -/

theorem chainWellFormed_nil : ChainWellFormed [] :=
  ⟨fun i h => absurd h (Nat.not_lt_zero i),
   fun h0 => absurd h0 (Nat.lt_irrefl 0),
   fun i h => absurd h (Nat.not_lt_zero (i + 1))⟩

theorem chainWellFormed_append (bs : List Block) (blk : Block)
    (h : ChainWellFormed bs)
    (hidx : blk.index = bs.length)
    (hprev : blk.previous_hash =
      (match bs.getLast? with
       | some last => last.current_hash
       | none => List.replicate 32 0)) :
    ChainWellFormed (bs ++ [blk]) := by
  obtain ⟨h1, h2, h3⟩ := h
  refine ⟨?_, ?_, ?_⟩
  · intro i hi
    rw [List.get_eq_getElem]
    rcases Nat.lt_or_ge i bs.length with hlt | hge
    · rw [List.getElem_append_left hlt]
      have := h1 i hlt
      rwa [List.get_eq_getElem] at this
    · have hieq : i = bs.length := by
        have hlen : (bs ++ [blk]).length = bs.length + 1 := by simp
        omega
      rw [List.getElem_concat_length bs blk i hieq]
      omega
  · intro h0
    rw [List.get_eq_getElem]
    rcases Nat.eq_zero_or_pos bs.length with hz | hp
    · have hbs : bs = [] := List.length_eq_zero.mp hz
      subst hbs
      simpa using hprev
    · rw [List.getElem_append_left hp]
      have := h2 hp
      rwa [List.get_eq_getElem] at this
  · intro i hi
    rw [List.get_eq_getElem, List.get_eq_getElem]
    rcases Nat.lt_or_ge (i + 1) bs.length with hlt | hge
    · rw [List.getElem_append_left hlt, List.getElem_append_left (Nat.lt_of_succ_lt hlt)]
      have := h3 i hlt
      rwa [List.get_eq_getElem, List.get_eq_getElem] at this
    · have hieq : i + 1 = bs.length := by
        have hlen : (bs ++ [blk]).length = bs.length + 1 := by simp
        omega
      have hibs : i < bs.length := by omega
      rw [List.getElem_concat_length bs blk (i + 1) hieq,
        List.getElem_append_left hibs]
      have hne : bs ≠ [] := by
        intro hb
        subst hb
        simp at hieq
      have hlast : bs.getLast? = some bs[i] := by
        rw [List.getLast?_eq_getElem?]
        have hi1 : bs.length - 1 = i := by omega
        rw [hi1, List.getElem?_eq_getElem hibs]
      rw [hprev, hlast]

/-! ### The reachability invariant -/

theorem inv_new (c : Crypto) : Inv c Blockchain.new :=
  ⟨chainWellFormed_nil, by simp [Blockchain.new], by simp [Blockchain.new]⟩

theorem inv_register (c : Crypto) {b : Blockchain} (pk : PublicKey) (s : Nat)
    (h : Inv c b) : Inv c (register_validator b pk s).2 := by
  obtain ⟨h1, h2, h3⟩ := h
  unfold register_validator
  split
  · exact ⟨h1, h2, h3⟩
  · split
    · exact ⟨h1, h2, h3⟩
    · refine ⟨h1, h2, ?_⟩
      intro kv hkv
      rcases List.mem_append.mp hkv with hm | hm
      · exact h3 kv hm
      · simp at hm
        subst hm
        rfl

theorem inv_submit (c : Crypto) {b : Blockchain} (sender recipient : PublicKey)
    (amount ts : Nat) (h : Inv c b) :
    Inv c (create_transaction c b sender recipient amount ts).2 := by
  obtain ⟨h1, h2, h3⟩ := h
  unfold create_transaction
  split
  · exact ⟨h1, h2, h3⟩
  · refine ⟨h1, ?_, h3⟩
    intro t ht
    rcases List.mem_append.mp ht with hm | hm
    · exact h2 t hm
    · simp at hm
      subst hm
      rfl

theorem inv_adjust (c : Crypto) {b : Blockchain} (pk : PublicKey) (d : ℚ)
    (h : Inv c b) : Inv c (ajuster_contribution_score b pk d) := by
  obtain ⟨h1, h2, h3⟩ := h
  refine ⟨h1, h2, ?_⟩
  intro kv hkv
  exact mem_updateValidator (fun v => v.last_validated_block = none) b.validators pk
    (fun v => { v with contribution_score := max 0 (min (v.contribution_score + d) 10) })
    h3 (fun v hv => hv) kv hkv

theorem inv_produce (c : Crypto) {b : Blockchain} (pk : PublicKey) (ts : Nat)
    (h : Inv c b) : Inv c (validate_and_create_block c b pk ts).2 := by
  obtain ⟨h1, h2, h3⟩ := h
  unfold validate_and_create_block
  split
  · exact ⟨h1, h2, h3⟩
  · split
    · exact ⟨h1, h2, h3⟩
    · refine ⟨?_, by simp, h3⟩
      exact chainWellFormed_append _ _ h1 rfl rfl

theorem reachable_inv {c : Crypto} {b : Blockchain} (h : Reachable c b) : Inv c b := by
  induction h with
  | init => exact inv_new c
  | register pk s _ ih => exact inv_register c pk s ih
  | submit sender recipient amount ts _ ih => exact inv_submit c sender recipient amount ts ih
  | adjust pk d _ ih => exact inv_adjust c pk d ih
  | produce pk ts _ ih => exact inv_produce c pk ts ih

/-! ### Registration (claims C6, C10) -/

/-- Claim C10: when an identity is already present in the registry and the
offered stake is below 500, registration fails with
ValidatorAlreadyRegistered, not InsufficientStake: the presence check
takes precedence over the stake-threshold check. -/
theorem register_presence_precedence (b : Blockchain) (pk : PublicKey) (s : Nat)
    (hin : containsKey b.validators pk = true) (hs : s < 500) :
    (register_validator b pk s).1 = .error .validatorAlreadyRegistered := by
  simp [register_validator, hin]

/-- Witness for C10: registering identity 1 again with stake 100 on a
ledger that already holds identity 1 reports ValidatorAlreadyRegistered. -/
theorem register_presence_precedence_witness :
    (register_validator ledger1 1 100).1 = .error .validatorAlreadyRegistered :=
  register_presence_precedence ledger1 1 100 (by decide) (by decide)

/-- Counterexample to claim C6 as stated: on a ledger already holding
identity 1, registering identity 1 with stake 100 (< 500) fails with
ValidatorAlreadyRegistered, not InsufficientStake. -/
theorem register_low_stake_cex :
    100 < 500 ∧
    (register_validator ledger1 1 100).1 = .error .validatorAlreadyRegistered ∧
    (register_validator ledger1 1 100).1 ≠ .error .insufficientStake := by
  decide

/-- Claim C6 (amended): for an identity not already present, registering
with stake < 500 fails with InsufficientStake and leaves the state
unchanged; registering an identity already present always fails with
ValidatorAlreadyRegistered and leaves the state unchanged; a successful
registration appends exactly one Validator with the given stake,
contribution score 1.0 and no last-validated block. -/
theorem register_spec (b : Blockchain) (pk : PublicKey) (s : Nat) :
    (containsKey b.validators pk = false → s < 500 →
      register_validator b pk s = (.error .insufficientStake, b)) ∧
    (containsKey b.validators pk = true →
      register_validator b pk s = (.error .validatorAlreadyRegistered, b)) ∧
    (containsKey b.validators pk = false → 500 ≤ s →
      register_validator b pk s =
        (.ok (), { b with validators := b.validators ++
          [(pk, { public_key := pk, stake := s, contribution_score := 1,
                  last_validated_block := none })] })) := by
  refine ⟨?_, ?_, ?_⟩
  · intro hc hs
    simp [register_validator, hc, hs]
  · intro hc
    simp [register_validator, hc]
  · intro hc hs
    simp [register_validator, hc, Nat.not_lt.mpr hs]

/-- Witness for C6: a fresh registration of identity 1 with stake 1000
succeeds and appends the expected Validator record. -/
theorem register_spec_witness :
    register_validator Blockchain.new 1 1000 =
      (.ok (), { Blockchain.new with validators := Blockchain.new.validators ++
        [(1, { public_key := 1, stake := 1000, contribution_score := 1,
               last_validated_block := none })] }) :=
  (register_spec Blockchain.new 1 1000).2.2 (by decide) (by decide)

/-! ### Transaction submission (claim C7) -/

/-- Claim C7: submit fails with InvalidAmount exactly when the amount is 0,
leaving the state unchanged; otherwise it appends exactly one transaction
at the end of the pending pool, carrying the given sender, recipient and
amount and signed over the canonical digest; no other check is performed. -/
theorem submit_spec (c : Crypto) (b : Blockchain) (sender recipient : PublicKey)
    (amount ts : Nat) :
    ((create_transaction c b sender recipient amount ts).1 = .error .invalidAmount ↔
      amount = 0) ∧
    (amount = 0 → (create_transaction c b sender recipient amount ts).2 = b) ∧
    (amount ≠ 0 →
      create_transaction c b sender recipient amount ts =
        (.ok (), { b with pending_transactions := b.pending_transactions ++
          [{ sender := sender, recipient := recipient, amount := amount,
             signature := c.sign sender (hash_transaction_data c sender recipient amount ts),
             timestamp := ts }] })) := by
  refine ⟨?_, ?_, ?_⟩
  · by_cases h : amount = 0
    · simp [create_transaction, h]
    · simp [create_transaction, h]
  · intro h
    simp [create_transaction, h]
  · intro h
    simp [create_transaction, h]

/-- Witness for C7: submitting amount 50 from 1 to 2 at time 5 appends
exactly the expected signed transaction. -/
theorem submit_spec_witness :
    create_transaction cryptoT ledger1 1 2 50 5 =
      (.ok (), { ledger1 with pending_transactions := ledger1.pending_transactions ++
        [{ sender := 1, recipient := 2, amount := 50,
           signature := cryptoT.sign 1 (hash_transaction_data cryptoT 1 2 50 5),
           timestamp := 5 }] }) :=
  (submit_spec cryptoT ledger1 1 2 50 5).2.2 (by decide)

/-! ### Contribution-score adjustment (claim C8) -/

/-- Claim C8: for a registered identity, adjustContribution sets the score
to the previous score plus the delta, clamped into [0, 10] (so the result
always lies in that interval); for an unknown identity the call is a
silent no-op leaving the whole state unchanged. -/
theorem adjust_spec (b : Blockchain) (pk : PublicKey) (d : ℚ) :
    (∀ v, findValidator b.validators pk = some v →
      findValidator (ajuster_contribution_score b pk d).validators pk =
        some { v with contribution_score := max 0 (min (v.contribution_score + d) 10) } ∧
      0 ≤ max 0 (min (v.contribution_score + d) 10) ∧
      max 0 (min (v.contribution_score + d) 10) ≤ 10) ∧
    (findValidator b.validators pk = none → ajuster_contribution_score b pk d = b) := by
  constructor
  · intro v hv
    refine ⟨?_, le_max_left _ _, ?_⟩
    · show findValidator (updateValidator b.validators pk _) pk = _
      rw [findValidator_updateValidator_self, hv]
      rfl
    · exact max_le (by norm_num) (min_le_right _ _)
  · intro hv
    show { b with validators := updateValidator b.validators pk _ } = b
    rw [updateValidator_of_not_found _ _ _ hv]

/-- Witness for C8: adjusting the score of registered identity 1 by 5
yields the clamped score, which lies in [0, 10]. -/
theorem adjust_spec_witness :
    findValidator (ajuster_contribution_score ledger1 1 5).validators 1 =
      some { public_key := 1, stake := 1000,
             contribution_score := max 0 (min ((1 : ℚ) + 5) 10),
             last_validated_block := none } ∧
    0 ≤ max 0 (min ((1 : ℚ) + 5) 10) ∧ max 0 (min ((1 : ℚ) + 5) 10) ≤ 10 :=
  (adjust_spec ledger1 1 5).1
    { public_key := 1, stake := 1000, contribution_score := 1, last_validated_block := none }
    (by decide)

/-! ### Block production (claims C1, C2, C3, C4, C9) -/

/-- A reachability chain used by the witnesses below: register validator 1
with stake 1000, then submit a transaction. -/
theorem reachable_ledger2 : Reachable cryptoT ledger2 :=
  Reachable.submit 1 2 50 5 (Reachable.register 1 1000 Reachable.init)

/-- Claim C2: produce-block returns ValidatorNotRegistered exactly when the
producing key is absent from the registry, ValidatorNotQualified exactly
when the key is present but the validator has stake < 1000 or score < 0.5,
and in both error cases the whole state (chain, pool, registry) is left
unchanged. -/
theorem produce_error_spec (c : Crypto) (b : Blockchain) (pk : PublicKey) (ts : Nat) :
    ((validate_and_create_block c b pk ts).1 = .error .validatorNotRegistered ↔
      findValidator b.validators pk = none) ∧
    ((validate_and_create_block c b pk ts).1 = .error .validatorNotQualified ↔
      ∃ v, findValidator b.validators pk = some v ∧
        (v.stake < 1000 ∨ v.contribution_score < 1 / 2)) ∧
    (∀ e, (validate_and_create_block c b pk ts).1 = .error e →
      (validate_and_create_block c b pk ts).2 = b) := by
  rcases hf : findValidator b.validators pk with _ | v
  · refine ⟨by simp [validate_and_create_block, hf], ?_, ?_⟩
    · simp [validate_and_create_block, hf]
    · intro e he
      simp [validate_and_create_block, hf]
  · by_cases hq : v.stake < 1000 ∨ v.contribution_score < half
    · have hq2 : v.stake < 1000 ∨ v.contribution_score < 1 / 2 := by rwa [half_eq] at hq
      refine ⟨?_, ?_, ?_⟩
      · simp [validate_and_create_block, hf, hq]
      · simp only [validate_and_create_block, hf, if_pos hq]
        simp [hf]
        rw [← one_div]
        exact hq2
      · intro e he
        simp [validate_and_create_block, hf, hq]
    · have hq2 : ¬(v.stake < 1000 ∨ v.contribution_score < 1 / 2) := by rwa [half_eq] at hq
      refine ⟨?_, ?_, ?_⟩
      · simp [validate_and_create_block, hf, hq]
      · simp only [validate_and_create_block, hf, if_neg hq]
        simp [hf]
        push_neg at hq2
        refine ⟨hq2.1, ?_⟩
        rw [← one_div]
        exact hq2.2
      · intro e he
        exfalso
        simp [validate_and_create_block, hf, hq] at he

/-- Witness for C2: an unregistered identity is rejected as not registered;
a registered identity with score 0 is rejected as not qualified, and the
rejected call leaves the state unchanged. -/
theorem produce_error_spec_witness :
    (validate_and_create_block cryptoT Blockchain.new 5 0).1 = .error .validatorNotRegistered ∧
    (validate_and_create_block cryptoT zeroWeightLedger 1 0).1 = .error .validatorNotQualified ∧
    (validate_and_create_block cryptoT zeroWeightLedger 1 0).2 = zeroWeightLedger :=
  ⟨(produce_error_spec cryptoT Blockchain.new 5 0).1.mpr rfl,
   (produce_error_spec cryptoT zeroWeightLedger 1 0).2.1.mpr
     ⟨zeroVal, rfl, Or.inr (by norm_num [zeroVal])⟩,
   (produce_error_spec cryptoT zeroWeightLedger 1 0).2.2 .validatorNotQualified
     ((produce_error_spec cryptoT zeroWeightLedger 1 0).2.1.mpr
       ⟨zeroVal, rfl, Or.inr (by norm_num [zeroVal])⟩)⟩

/-- Claim C3: when the producing validator is registered and qualified,
produce-block succeeds, appending exactly one block whose index is the old
chain length, whose transactions are the pending pool snapshot, and whose
previous hash is the old tail's current hash (or 32 zero bytes for an
empty chain); the pool is then empty and the returned block is the new
tail. -/
theorem produce_success_spec (c : Crypto) (b : Blockchain) (pk : PublicKey) (ts : Nat)
    (v : Validator) (hreg : findValidator b.validators pk = some v)
    (hstake : 1000 ≤ v.stake) (hscore : 1 / 2 ≤ v.contribution_score) :
    ∃ blk,
      validate_and_create_block c b pk ts =
        (.ok blk, { b with chain := b.chain ++ [blk], pending_transactions := [] }) ∧
      blk.index = b.chain.length ∧
      blk.transactions = b.pending_transactions ∧
      blk.previous_hash =
        (match b.chain.getLast? with
         | some last => last.current_hash
         | none => List.replicate 32 0) ∧
      (b.chain ++ [blk]).getLast? = some blk := by
  have hq : ¬(v.stake < 1000 ∨ v.contribution_score < half) := by
    rw [half_eq]
    push_neg
    exact ⟨hstake, hscore⟩
  simp only [validate_and_create_block, hreg, if_neg hq]
  exact ⟨_, rfl, rfl, rfl, rfl, List.getLast?_concat _⟩

/-- Witness for C3: on `ledger2` (validator 1 qualified, one pending
transaction) production at time 7 succeeds with the stated shape. -/
theorem produce_success_spec_witness :
    ∃ blk,
      validate_and_create_block cryptoT ledger2 1 7 =
        (.ok blk, { ledger2 with chain := ledger2.chain ++ [blk], pending_transactions := [] }) ∧
      blk.index = ledger2.chain.length ∧
      blk.transactions = ledger2.pending_transactions ∧
      blk.previous_hash =
        (match ledger2.chain.getLast? with
         | some last => last.current_hash
         | none => List.replicate 32 0) ∧
      (ledger2.chain ++ [blk]).getLast? = some blk :=
  produce_success_spec cryptoT ledger2 1 7
    { public_key := 1, stake := 1000, contribution_score := 1, last_validated_block := none }
    (by decide) (by decide) (le_of_lt one_half_lt_one)

/-- Claim C4: a produced block's current hash is the digest of its previous
hash followed by the canonical per-transaction digests of its transactions
(the pool snapshot, in order), and each of those transactions was signed at
submission time over that same canonical digest. -/
theorem produce_hash_spec (c : Crypto) (b : Blockchain) (pk : PublicKey) (ts : Nat)
    (blk : Block) (hreach : Reachable c b)
    (hok : (validate_and_create_block c b pk ts).1 = .ok blk) :
    blk.current_hash =
      c.digest (blk.previous_hash ++ (blk.transactions.map (txDigest c)).flatten) ∧
    ∀ t ∈ blk.transactions, t.signature = c.sign t.sender (txDigest c t) := by
  obtain ⟨-, h2, -⟩ := reachable_inv hreach
  rcases hf : findValidator b.validators pk with _ | v
  · simp [validate_and_create_block, hf] at hok
  · by_cases hq : v.stake < 1000 ∨ v.contribution_score < half
    · simp [validate_and_create_block, hf, hq] at hok
    · simp only [validate_and_create_block, hf, if_neg hq] at hok
      have hblk : blk =
          { index := b.chain.length, timestamp := ts,
            transactions := b.pending_transactions,
            previous_hash :=
              (match b.chain.getLast? with
               | some last => last.current_hash
               | none => List.replicate 32 0),
            current_hash := calculate_block_hash c
              (match b.chain.getLast? with
               | some last => last.current_hash
               | none => List.replicate 32 0) b.pending_transactions,
            validator_signature := c.sign pk (calculate_block_hash c
              (match b.chain.getLast? with
               | some last => last.current_hash
               | none => List.replicate 32 0) b.pending_transactions),
            validator_pubkey := pk } := by
        have := hok
        injection this with h'
        exact h'.symm
      subst hblk
      exact ⟨rfl, h2⟩

/-- Witness for C4: the block produced on `ledger2` hashes to the digest of
its previous hash and its transactions' canonical digests, each of which
was the signed payload at submission. -/
theorem produce_hash_spec_witness :
    blkW.current_hash =
      cryptoT.digest (blkW.previous_hash ++ (blkW.transactions.map (txDigest cryptoT)).flatten) ∧
    ∀ t ∈ blkW.transactions, t.signature = cryptoT.sign t.sender (txDigest cryptoT t) :=
  produce_hash_spec cryptoT ledger2 1 7 blkW reachable_ledger2 rfl

/-- Claim C9: produce-block never modifies the validator registry (success
or failure), and since no operation ever sets `last_validated_block`, it is
`none` for every validator in every reachable state. -/
theorem produce_registry_frame (c : Crypto) (b : Blockchain) (pk : PublicKey) (ts : Nat) :
    (validate_and_create_block c b pk ts).2.validators = b.validators ∧
    (Reachable c b → ∀ kv ∈ b.validators, kv.2.last_validated_block = none) := by
  constructor
  · rcases hf : findValidator b.validators pk with _ | v
    · simp [validate_and_create_block, hf]
    · by_cases hq : v.stake < 1000 ∨ v.contribution_score < half
      · simp [validate_and_create_block, hf, hq]
      · simp [validate_and_create_block, hf, hq]
  · intro h
    exact (reachable_inv h).2.2

/-- Witness for C9: producing on `ledger2` leaves the registry untouched,
and the reachable state `ledger2` has no `last_validated_block` set. -/
theorem produce_registry_frame_witness :
    (validate_and_create_block cryptoT ledger2 1 7).2.validators = ledger2.validators ∧
    (∀ kv ∈ ledger2.validators, kv.2.last_validated_block = none) :=
  ⟨(produce_registry_frame cryptoT ledger2 1 7).1,
   (produce_registry_frame cryptoT ledger2 1 7).2 reachable_ledger2⟩

/-- Claim C1: in every reachable ledger state the chain is hash-chained and
gapless: block 0 (when present) has the all-zero previous hash, every later
block's previous hash is the current hash of its predecessor, and every
block's index equals its position. -/
theorem reachable_chain_wellformed (c : Crypto) (b : Blockchain) (h : Reachable c b) :
    ChainWellFormed b.chain :=
  (reachable_inv h).1

/-- Witness for C1: the chain of `ledger3` (reached by register, submit,
produce) is well formed. -/
theorem reachable_chain_wellformed_witness : ChainWellFormed ledger3.chain :=
  reachable_chain_wellformed cryptoT ledger3 (Reachable.produce 1 7 reachable_ledger2)

/-! ### Validator selection (claim C5) -/

theorem total_weighted_stake_nil : total_weighted_stake [] = 0 := rfl

theorem total_weighted_stake_cons (kv : PublicKey × Validator)
    (vs : List (PublicKey × Validator)) :
    total_weighted_stake (kv :: vs) =
      (kv.2.stake : ℚ) * kv.2.contribution_score + total_weighted_stake vs := by
  simp [total_weighted_stake]

theorem total_weighted_stake_nonneg (vs : List (PublicKey × Validator))
    (hw : ∀ kv ∈ vs, 0 ≤ kv.2.contribution_score) :
    0 ≤ total_weighted_stake vs := by
  induction vs with
  | nil => simp [total_weighted_stake]
  | cons kv rest ih =>
    rw [total_weighted_stake_cons]
    have h1 : 0 ≤ (kv.2.stake : ℚ) * kv.2.contribution_score :=
      mul_nonneg (Nat.cast_nonneg _) (hw kv (List.mem_cons_self _ _))
    have h2 := ih fun kv hm => hw kv (List.mem_cons_of_mem _ hm)
    linarith

/-- The cumulative walk always selects someone once the target point is at
most the accumulated value plus the remaining total weight. -/
theorem select_walk_isSome (point : ℚ) (vs : List (PublicKey × Validator)) :
    ∀ acc : ℚ, vs ≠ [] → point ≤ acc + total_weighted_stake vs →
      (select_walk point acc vs).isSome := by
  induction vs with
  | nil =>
    intro acc h _
    exact absurd rfl h
  | cons kv rest ih =>
    obtain ⟨k0, v0⟩ := kv
    intro acc _ hle
    by_cases hc : point ≤ acc + (v0.stake : ℚ) * v0.contribution_score
    · simp [select_walk, hc]
    · have hstep : select_walk point acc ((k0, v0) :: rest) =
          select_walk point (acc + (v0.stake : ℚ) * v0.contribution_score) rest := by
        simp [select_walk, hc]
      rw [total_weighted_stake_cons] at hle
      rcases rest with _ | ⟨kv2, rest2⟩
      · exfalso
        rw [total_weighted_stake_nil] at hle
        exact hc (by linarith)
      · rw [hstep]
        exact ih _ (by simp) (by linarith)

/-- Any selected validator is the first of the walk whose cumulative
weight reaches or exceeds the target point. -/
theorem select_walk_first (point : ℚ) (vs : List (PublicKey × Validator)) :
    ∀ (acc : ℚ) (pk : PublicKey), select_walk point acc vs = some pk →
      ∃ j, ∃ hj : j < vs.length,
        pk = (vs.get ⟨j, hj⟩).1 ∧
        point ≤ acc + total_weighted_stake (vs.take (j + 1)) ∧
        ∀ k, k < j → acc + total_weighted_stake (vs.take (k + 1)) < point := by
  induction vs with
  | nil =>
    intro acc pk h
    simp [select_walk] at h
  | cons kv rest ih =>
    obtain ⟨k0, v0⟩ := kv
    intro acc pk h
    by_cases hc : point ≤ acc + (v0.stake : ℚ) * v0.contribution_score
    · have hpk : k0 = pk := by
        simpa [select_walk, hc] using h
      subst hpk
      refine ⟨0, Nat.succ_pos _, rfl, ?_, ?_⟩
      · rw [List.take_succ_cons, List.take_zero, total_weighted_stake_cons,
          total_weighted_stake_nil]
        linarith
      · intro k hk
        exact absurd hk (Nat.not_lt_zero k)
    · have h' : select_walk point (acc + (v0.stake : ℚ) * v0.contribution_score) rest =
          some pk := by
        simpa [select_walk, hc] using h
      obtain ⟨j, hj, hpk, hge, hlt⟩ := ih _ pk h'
      refine ⟨j + 1, Nat.succ_lt_succ hj, ?_, ?_, ?_⟩
      · simpa using hpk
      · rw [List.take_succ_cons, total_weighted_stake_cons]
        linarith
      · intro k hk
        cases k with
        | zero =>
          rw [List.take_succ_cons, List.take_zero, total_weighted_stake_cons,
            total_weighted_stake_nil]
          push_neg at hc
          linarith
        | succ k' =>
          have := hlt k' (Nat.lt_of_succ_lt_succ hk)
          rw [List.take_succ_cons, total_weighted_stake_cons]
          linarith

/-- Counterexample to claim C5 as stated: on a nonempty registry whose
total weight is exactly zero (one validator with stake 1000 and score 0),
select_validator returns that validator, not "no selection". -/
theorem select_zero_weight_cex :
    ¬ (select_validator zeroWeightLedger (1 / 2) = none ↔
       zeroWeightLedger.validators = [] ∨
       total_weighted_stake zeroWeightLedger.validators = 0) := by
  have h1 : total_weighted_stake zeroWeightLedger.validators = 0 := by
    norm_num [total_weighted_stake, zeroWeightLedger, zeroVal]
  have h2 : select_validator zeroWeightLedger (1 / 2) = some 1 := by
    rw [select_validator, h1]
    norm_num [select_walk, zeroWeightLedger, zeroVal]
  intro hiff
  have h3 := hiff.mpr (Or.inr h1)
  rw [h2] at h3
  simp at h3

/-- Claim C5 (amended): over registries whose contribution scores are
nonnegative (as in every reachable state), select_validator returns "no
selection" if and only if the registry is empty — in particular, a
nonempty all-zero-weight registry yields the first validator of the walk,
not None — and any returned validator is the first of the walk whose
cumulative weight reaches or exceeds the draw r · totalWeight. -/
theorem select_validator_spec (b : Blockchain) (r : ℚ)
    (hr0 : 0 ≤ r) (hr1 : r < 1)
    (hw : ∀ kv ∈ b.validators, 0 ≤ kv.2.contribution_score) :
    (select_validator b r = none ↔ b.validators = []) ∧
    (∀ pk, select_validator b r = some pk →
      ∃ j, ∃ hj : j < b.validators.length,
        pk = (b.validators.get ⟨j, hj⟩).1 ∧
        r * total_weighted_stake b.validators ≤
          total_weighted_stake (b.validators.take (j + 1)) ∧
        ∀ k, k < j → total_weighted_stake (b.validators.take (k + 1)) <
          r * total_weighted_stake b.validators) := by
  constructor
  · constructor
    · intro hnone
      by_contra hne
      have htot : 0 ≤ total_weighted_stake b.validators :=
        total_weighted_stake_nonneg _ hw
      have hle : r * total_weighted_stake b.validators ≤
          0 + total_weighted_stake b.validators := by
        rw [zero_add]
        nlinarith
      have hsome := select_walk_isSome (r * total_weighted_stake b.validators)
        b.validators 0 hne hle
      rw [select_validator] at hnone
      rw [hnone] at hsome
      simp at hsome
    · intro he
      rw [select_validator, he]
      rfl
  · intro pk hpk
    rw [select_validator] at hpk
    obtain ⟨j, hj, h1, h2, h3⟩ := select_walk_first _ _ 0 pk hpk
    rw [zero_add] at h2
    refine ⟨j, hj, h1, h2, ?_⟩
    intro k hk
    have := h3 k hk
    linarith

/-- Witness for C5 (amended): at `ledger1` (one validator of weight 1000)
with draw 0, the selection behaves as stated. -/
theorem select_validator_spec_witness :
    (select_validator ledger1 0 = none ↔ ledger1.validators = []) ∧
    (∀ pk, select_validator ledger1 0 = some pk →
      ∃ j, ∃ hj : j < ledger1.validators.length,
        pk = (ledger1.validators.get ⟨j, hj⟩).1 ∧
        0 * total_weighted_stake ledger1.validators ≤
          total_weighted_stake (ledger1.validators.take (j + 1)) ∧
        ∀ k, k < j → total_weighted_stake (ledger1.validators.take (k + 1)) <
          0 * total_weighted_stake ledger1.validators) :=
  select_validator_spec ledger1 0 (le_refl 0) zero_lt_one (by decide)

end SupplyX
